import Mathlib

/-!
Verification of the order-completion / inventory-decrement reconciliation core
of the inventory dashboard (src/app.py).  The function under study is
apply_completions_update_inventory (app.py lines 159-216), which receives four
table snapshots (orders before, orders after, inventory, mapping), detects the
order lines whose Completed flag flipped from false to true, and decrements the
mapped inventory records.

Modelling conventions for the pandas code:
  * Each sheet row is a fixed-shape record carrying exactly the columns the
    function reads; the reader functions (read_inventory_sheet,
    read_orders_sheet) guarantee OnHand, MinLevel, Qty are ints and Completed
    is a Bool, so those fields are typed Int / Bool here.
  * Map sheet cells JamlinerLength and BalanceSize may be missing (pandas NaN),
    modelled as Option String; the dropna call in the function removes rows
    where either is missing.  UnitsPerOrder is an Int as produced by
    read_map_sheet.
  * Python str.strip() is modelled by pyStrip, which removes leading and
    trailing whitespace characters from the underlying character list.
  * A scalar DataFrame .loc access (before.loc[lid, "Completed"],
    after.loc[lid, col], inv.loc[bs, "OnHand"]) returns a scalar only when the
    index key matches exactly one row; with a duplicated key it yields a Series
    and the enclosing bool(...) / int(...) coercion raises.  Such a raise is
    modelled as Option.none propagating out of the function.
  * st.warning side effects are modelled by an accumulated warning list.
-/

/-- One row of the Inventory sheet (columns Item, SKU, OnHand, MinLevel,
LowStock) as produced by read_inventory_sheet: Item holds the balance size,
SKU the jamliner length, and LowStock the derived flag. -/
structure InvRecord where
  item : String
  sku : String
  onHand : Int
  minLevel : Int
  lowStock : Bool
deriving DecidableEq, Repr

/-- One row of the Orders sheet restricted to the four columns that
apply_completions_update_inventory reads: LineId, SKU, Qty, Completed.
The remaining columns (OrderId, OrderName, CompletedAt, CreatedDate, Note)
are never read by the function and are omitted from the embedding. -/
structure OrderLine where
  lineId : String
  sku : String
  qty : Int
  completed : Bool
deriving DecidableEq, Repr

/-- One row of the Map sheet.  The two string cells may be missing (NaN),
hence Option String; UnitsPerOrder is an Int. -/
structure MapRow where
  jamlinerLength : Option String
  balanceSize : Option String
  unitsPerOrder : Int
deriving DecidableEq, Repr

/-- The two st.warning messages the function can emit (app.py lines 200 and
207), carrying the data interpolated into the message text. -/
inductive Warning where
  | noMapEntry (jamliner : String) (lineId : String)
  | balanceNotFound (balanceSize : String) (lineId : String)
deriving DecidableEq, Repr

/-- Python str.strip(): remove leading and trailing whitespace from the
string, modelled on the character list underlying the String. -/
def pyStrip (s : String) : String :=
  ⟨((s.data.dropWhile Char.isWhitespace).reverse.dropWhile Char.isWhitespace).reverse⟩

/-- app.py lines 173-175: m = map_df.dropna(subset=["JamlinerLength",
"BalanceSize"]) followed by str.strip() on both columns.  Rows with a missing
cell are dropped; surviving cells are stripped. -/
def cleanMapRows (rows : List MapRow) : List (String × String × Int) :=
  rows.filterMap (fun r =>
    match r.jamlinerLength, r.balanceSize with
    | some jl, some bs => some (pyStrip jl, pyStrip bs, r.unitsPerOrder)
    | _, _ => none)

/-- app.py lines 176-179: the dict comprehension building map_lookup.  In a
Python dict comprehension the last row with a given key wins, so the lookup
returns the last cleaned row whose trimmed JamlinerLength equals the key. -/
def mapLookup (rows : List MapRow) (key : String) : Option (String × Int) :=
  ((cleanMapRows rows).reverse.find? (fun e => e.1 == key)).map (fun e => e.2)

/-- Scalar access after.loc[lid] on the LineId-indexed orders frame: a scalar
row is obtained only when exactly one row has that LineId; with duplicates the
access yields a Series and the scalar coercions raise (modelled as none). -/
def locLine (after : List OrderLine) (lid : String) : Option OrderLine :=
  match after.filter (fun r => r.lineId == lid) with
  | [line] => some line
  | _ => none

/-- app.py line 187: was = bool(before.loc[line_id, "Completed"]) if line_id in
before.index else False.  An absent LineId defaults to false; a duplicated
LineId makes bool(...) raise (none). -/
def wasCompleted (before : List OrderLine) (lid : String) : Option Bool :=
  match before.filter (fun r => r.lineId == lid) with
  | [] => some false
  | [line] => some line.completed
  | _ => none

/-- app.py lines 185-190: the loop over after.index collecting the LineIds
whose Completed flag flipped false to true, in iteration order. -/
def detectGo (before after : List OrderLine) :
    List String → List String → Option (List String)
  | [], acc => some acc
  | lid :: rest, acc =>
    (wasCompleted before lid).bind (fun was =>
      (locLine after lid).bind (fun line =>
        detectGo before after rest
          (if !was && line.completed then acc ++ [lid] else acc)))

/-- The completion-detection pass of apply_completions_update_inventory
(app.py lines 181-190), iterating over after's LineId index. -/
def detectNewlyCompleted (before after : List OrderLine) : Option (List String) :=
  detectGo before after (after.map (fun r => r.lineId)) []

/-- app.py line 210: cur = int(inv.loc[balance_size, "OnHand"]) on the
Item-indexed inventory frame; a duplicated Item makes int(...) raise (none). -/
def locOnHand (inv : List InvRecord) (bs : String) : Option Int :=
  match inv.filter (fun r => r.item == bs) with
  | [r0] => some r0.onHand
  | _ => none

/-- Record update writing the OnHand field. -/
def setOnHand (r : InvRecord) (v : Int) : InvRecord :=
  ⟨r.item, r.sku, v, r.minLevel, r.lowStock⟩

/-- app.py line 211: inv.loc[balance_size, "OnHand"] = cur - total_consume,
which writes every row whose Item equals balance_size. -/
def updateOnHand (inv : List InvRecord) (bs : String) (v : Int) : List InvRecord :=
  inv.map (fun r => if r.item == bs then setOnHand r v else r)

/-- Record update writing the LowStock field. -/
def setLowStock (r : InvRecord) (b : Bool) : InvRecord :=
  ⟨r.item, r.sku, r.onHand, r.minLevel, b⟩

/-- app.py line 215: out["LowStock"] = out["OnHand"] <= out["MinLevel"],
recomputing the derived flag for every record. -/
def recomputeLowStock (inv : List InvRecord) : List InvRecord :=
  inv.map (fun r => setLowStock r (decide (r.onHand ≤ r.minLevel)))

/-- One iteration of the decrement loop (app.py lines 193-211) for a single
newly-completed LineId, threading the working inventory copy and the emitted
warnings. -/
def applyLineStep (lookup : String → Option (String × Int)) (after : List OrderLine)
    (inv : List InvRecord) (ws : List Warning) (lid : String) :
    Option (List InvRecord × List Warning) :=
  (locLine after lid).bind (fun line =>
    if line.qty ≤ 0 then some (inv, ws)
    else
      match lookup (pyStrip line.sku) with
      | none => some (inv, ws ++ [Warning.noMapEntry (pyStrip line.sku) lid])
      | some (bs, u) =>
        if inv.any (fun r => r.item == bs) then
          (locOnHand inv bs).bind (fun cur =>
            some (updateOnHand inv bs (cur - line.qty * max u 1), ws))
        else some (inv, ws ++ [Warning.balanceNotFound bs lid]))

/-- The decrement loop of app.py lines 192-211 over the changed LineIds. -/
def applyGo (lookup : String → Option (String × Int)) (after : List OrderLine) :
    List String → List InvRecord → List Warning →
    Option (List InvRecord × List Warning)
  | [], inv, ws => some (inv, ws)
  | lid :: rest, inv, ws =>
    (applyLineStep lookup after inv ws lid).bind (fun s =>
      applyGo lookup after rest s.1 s.2)

/-- apply_completions_update_inventory (app.py lines 159-216): detect the
newly-completed lines, apply the decrements against the working copy, then
recompute LowStock for the whole ledger and return it together with the
warnings emitted along the way. -/
def apply_completions_update_inventory (ordersBefore ordersAfter : List OrderLine)
    (inventory : List InvRecord) (mapRows : List MapRow) :
    Option (List InvRecord × List Warning) :=
  (detectNewlyCompleted ordersBefore ordersAfter).bind (fun changed =>
    (applyGo (mapLookup mapRows) ordersAfter changed inventory []).bind (fun s =>
      some (recomputeLowStock s.1, s.2)))

/-- The OnHand values of the inventory records whose Item equals bs (a
singleton list exactly when bs keys a unique record). -/
def onHandOf (inv : List InvRecord) (bs : String) : List Int :=
  (inv.filter (fun r => r.item == bs)).map (fun r => r.onHand)

/-- The balance size actually decremented for a LineId, if its line reaches
app.py line 211: positive quantity, a mapping entry, and a present balance
row.  Lines that skip (silently or with a warning) have no applied target. -/
def appliedTarget (lookup : String → Option (String × Int)) (after : List OrderLine)
    (inv : List InvRecord) (lid : String) : Option String :=
  match locLine after lid with
  | none => none
  | some line =>
    if line.qty ≤ 0 then none
    else
      match lookup (pyStrip line.sku) with
      | none => none
      | some (bs, _) =>
        if inv.any (fun r => r.item == bs) then some bs else none

/-- The consumption a LineId contributes against the records keyed key:
qty * max(units_per, 1) when the line applies its decrement to key, else 0. -/
def consumptionOf (lookup : String → Option (String × Int)) (after : List OrderLine)
    (inv : List InvRecord) (key : String) (lid : String) : Int :=
  match locLine after lid with
  | none => 0
  | some line =>
    if line.qty ≤ 0 then 0
    else
      match lookup (pyStrip line.sku) with
      | none => 0
      | some (bs, u) =>
        if bs == key && inv.any (fun r => r.item == bs) then
          line.qty * max u 1
        else 0

/-- Sum of the per-line consumptions against the records keyed key over a
batch of LineIds. -/
def totalConsumption (lookup : String → Option (String × Int)) (after : List OrderLine)
    (inv : List InvRecord) (key : String) : List String → Int
  | [] => 0
  | lid :: rest =>
    consumptionOf lookup after inv key lid +
      totalConsumption lookup after inv key rest

/-- app.py line 71: the columns selected by write_inventory_sheet for
persistence (out = df[["Item", "SKU", "OnHand", "MinLevel"]]). -/
def inventorySheetColumns : List String := ["Item", "SKU", "OnHand", "MinLevel"]

/-- The cell data write_inventory_sheet persists for each record: exactly the
four selected columns, in order. -/
def write_inventory_rows (inv : List InvRecord) : List (String × String × Int × Int) :=
  inv.map (fun r => (r.item, r.sku, r.onHand, r.minLevel))

/-- A LineId counts as newly completed: its (unique) row in after is completed
and its completion flag in before was false (defaulting to false when absent
from before). -/
def NewlyCompleted (before after : List OrderLine) (lid : String) : Prop :=
  ∃ line, locLine after lid = some line ∧ line.completed = true ∧
    wasCompleted before lid = some false

/-! ### Basic lemmas about keyed row access -/

theorem locLine_filter {after : List OrderLine} {lid : String} {line : OrderLine}
    (h : locLine after lid = some line) :
    after.filter (fun r => r.lineId == lid) = [line] := by
  unfold locLine at h
  rcases hf : after.filter (fun r => r.lineId == lid) with _ | ⟨a, _ | ⟨b, t⟩⟩ <;>
    rw [hf] at h <;> simp_all

theorem locLine_mem {after : List OrderLine} {lid : String} {line : OrderLine}
    (h : locLine after lid = some line) : line ∈ after ∧ line.lineId = lid := by
  have hf := locLine_filter h
  have hm : line ∈ after.filter (fun r => r.lineId == lid) := by
    rw [hf]; exact List.mem_singleton_self line
  have h2 := List.mem_filter.mp hm
  exact ⟨h2.1, by simpa using h2.2⟩

theorem filter_eq_single_of_nodup {α : Type} (f : α → String) {l : List α}
    (hnd : (l.map f).Nodup) {x : α} (hx : x ∈ l) :
    l.filter (fun r => f r == f x) = [x] := by
  induction l with
  | nil => cases hx
  | cons a t ih =>
    rw [List.map_cons, List.nodup_cons] at hnd
    rcases List.mem_cons.mp hx with rfl | hxt
    · rw [List.filter_cons_of_pos (by simp)]
      have ht : t.filter (fun r => f r == f x) = [] := by
        rw [List.filter_eq_nil_iff]
        intro b hb
        simp only [beq_iff_eq]
        intro hfb
        exact hnd.1 (hfb ▸ List.mem_map_of_mem f hb)
      rw [ht]
    · have hne : (f a == f x) = false := by
        simp only [beq_eq_false_iff_ne, ne_eq]
        intro hfa
        exact hnd.1 (hfa ▸ List.mem_map_of_mem f hxt)
      rw [List.filter_cons_of_neg (by simp [hne])]
      exact ih hnd.2 hxt

theorem filter_key_length_le_one {α : Type} (f : α → String) {l : List α}
    (hnd : (l.map f).Nodup) (k : String) :
    (l.filter (fun r => f r == k)).length ≤ 1 := by
  induction l with
  | nil => simp
  | cons a t ih =>
    rw [List.map_cons, List.nodup_cons] at hnd
    by_cases ha : f a = k
    · rw [List.filter_cons_of_pos (by simp [ha])]
      have ht : t.filter (fun r => f r == k) = [] := by
        rw [List.filter_eq_nil_iff]
        intro b hb
        simp only [beq_iff_eq]
        intro hfb
        exact hnd.1 (by
          have : f b ∈ t.map f := List.mem_map_of_mem f hb
          rw [hfb, ← ha] at this
          exact this)
      simp [ht]
    · rw [List.filter_cons_of_neg (by simp [ha])]
      exact ih hnd.2

theorem wasCompleted_isSome {before : List OrderLine}
    (hnd : (before.map (fun r => r.lineId)).Nodup) (lid : String) :
    (wasCompleted before lid).isSome := by
  unfold wasCompleted
  have hlen := filter_key_length_le_one (fun r : OrderLine => r.lineId) hnd lid
  rcases hf : before.filter (fun r => r.lineId == lid) with _ | ⟨a, _ | ⟨b, t⟩⟩
  · rw [hf]; rfl
  · rw [hf]; rfl
  · rw [hf] at hlen; simp at hlen

theorem locLine_eq_of_mem {after : List OrderLine}
    (hnd : (after.map (fun r => r.lineId)).Nodup) {x : OrderLine} (hx : x ∈ after) :
    locLine after x.lineId = some x := by
  unfold locLine
  rw [filter_eq_single_of_nodup (fun r => r.lineId) hnd hx]

theorem locLine_isSome_of_mem {after : List OrderLine}
    (hnd : (after.map (fun r => r.lineId)).Nodup) {lid : String}
    (hlid : lid ∈ after.map (fun r => r.lineId)) :
    (locLine after lid).isSome := by
  obtain ⟨x, hx, rfl⟩ := List.mem_map.mp hlid
  rw [locLine_eq_of_mem hnd hx]; rfl

/-! ### Lemmas about completion detection -/

theorem detectGo_mem (before after : List OrderLine) :
    ∀ (lids acc changed : List String),
      detectGo before after lids acc = some changed →
      ∀ lid, lid ∈ changed ↔
        (lid ∈ acc ∨ (lid ∈ lids ∧ NewlyCompleted before after lid)) := by
  intro lids
  induction lids with
  | nil =>
    intro acc changed h lid
    unfold detectGo at h
    injection h with h
    subst h
    simp
  | cons lid0 rest ih =>
    intro acc changed h lid
    unfold detectGo at h
    cases hw : wasCompleted before lid0 with
    | none => rw [hw] at h; simp at h
    | some was =>
      cases hl : locLine after lid0 with
      | none => rw [hw, hl] at h; simp at h
      | some line =>
        rw [hw, hl] at h
        simp only [Option.some_bind] at h
        have hmem := ih _ _ h lid
        by_cases hc : (!was && line.completed) = true
        · rw [if_pos hc] at hmem
          have hboth : was = false ∧ line.completed = true := by
            cases was <;> cases hcl : line.completed <;> simp_all
          have hcomp : line.completed = true := hboth.2
          have hwas : was = false := hboth.1
          have hnc0 : NewlyCompleted before after lid0 :=
            ⟨line, hl, hcomp, hwas ▸ hw⟩
          rw [hmem]
          simp only [List.mem_append, List.mem_cons, List.not_mem_nil, or_false]
          constructor
          · rintro ((hA | hEq) | ⟨hR, hC⟩)
            · exact Or.inl hA
            · exact Or.inr ⟨Or.inl hEq, hEq ▸ hnc0⟩
            · exact Or.inr ⟨Or.inr hR, hC⟩
          · rintro (hA | ⟨hEq | hR, hC⟩)
            · exact Or.inl (Or.inl hA)
            · exact Or.inl (Or.inr hEq)
            · exact Or.inr ⟨hR, hC⟩
        · rw [if_neg hc] at hmem
          have hnc0 : ¬ NewlyCompleted before after lid0 := by
            rintro ⟨line2, hl2, hcomp2, hwas2⟩
            rw [hl] at hl2
            rw [hw] at hwas2
            injection hl2 with hline2
            injection hwas2 with hwas2
            subst hwas2
            apply hc
            rw [hline2]
            simp [hcomp2]
          rw [hmem]
          simp only [List.mem_cons]
          constructor
          · rintro (hA | ⟨hR, hC⟩)
            · exact Or.inl hA
            · exact Or.inr ⟨Or.inr hR, hC⟩
          · rintro (hA | ⟨hEq | hR, hC⟩)
            · exact Or.inl hA
            · exact absurd (hEq ▸ hC) hnc0
            · exact Or.inr ⟨hR, hC⟩

theorem detect_mem {before after : List OrderLine} {changed : List String}
    (h : detectNewlyCompleted before after = some changed) (lid : String) :
    lid ∈ changed ↔ NewlyCompleted before after lid := by
  have h' : detectGo before after (after.map (fun r => r.lineId)) [] = some changed := h
  have hiff := detectGo_mem before after (after.map (fun r => r.lineId)) [] changed h' lid
  rw [hiff]
  simp only [List.not_mem_nil, false_or]
  constructor
  · rintro ⟨_, hC⟩; exact hC
  · intro hC
    refine ⟨?_, hC⟩
    obtain ⟨line, hl, _, _⟩ := hC
    obtain ⟨hmem, hlid⟩ := locLine_mem hl
    exact hlid ▸ List.mem_map_of_mem (fun r => r.lineId) hmem

theorem detectGo_self (b : List OrderLine) :
    ∀ (lids acc changed : List String),
      detectGo b b lids acc = some changed → changed = acc := by
  intro lids
  induction lids with
  | nil =>
    intro acc changed h
    unfold detectGo at h
    injection h with h
    exact h.symm
  | cons lid rest ih =>
    intro acc changed h
    unfold detectGo at h
    cases hw : wasCompleted b lid with
    | none => rw [hw] at h; simp at h
    | some was =>
      cases hl : locLine b lid with
      | none => rw [hw, hl] at h; simp at h
      | some line =>
        rw [hw, hl] at h
        simp only [Option.some_bind] at h
        have hwl : was = line.completed := by
          have hf := locLine_filter hl
          unfold wasCompleted at hw
          rw [hf] at hw
          injection hw with hw
          exact hw.symm
        subst hwl
        have hff : (!line.completed && line.completed) = false := by
          cases line.completed <;> rfl
        rw [hff] at h
        simp only [Bool.false_eq_true, if_false] at h
        exact ih _ _ h

theorem detect_self {b : List OrderLine} {changed : List String}
    (h : detectNewlyCompleted b b = some changed) : changed = [] := by
  have h' : detectGo b b (b.map (fun r => r.lineId)) [] = some changed := h
  exact detectGo_self b _ _ _ h'

theorem detectGo_total (before after : List OrderLine)
    (hb : (before.map (fun r => r.lineId)).Nodup)
    (ha : (after.map (fun r => r.lineId)).Nodup) :
    ∀ (lids acc : List String),
      (∀ lid ∈ lids, lid ∈ after.map (fun r => r.lineId)) →
      ∃ changed, detectGo before after lids acc = some changed := by
  intro lids
  induction lids with
  | nil => intro acc _; exact ⟨acc, rfl⟩
  | cons lid rest ih =>
    intro acc hsub
    obtain ⟨was, hw⟩ := Option.isSome_iff_exists.mp (wasCompleted_isSome hb lid)
    obtain ⟨line, hl⟩ := Option.isSome_iff_exists.mp
      (locLine_isSome_of_mem ha (hsub lid (List.mem_cons_self lid rest)))
    obtain ⟨changed, hcg⟩ := ih (if !was && line.completed then acc ++ [lid] else acc)
      (fun x hx => hsub x (List.mem_cons_of_mem lid hx))
    refine ⟨changed, ?_⟩
    unfold detectGo
    rw [hw, hl]
    simpa using hcg

theorem detect_total (before after : List OrderLine)
    (hb : (before.map (fun r => r.lineId)).Nodup)
    (ha : (after.map (fun r => r.lineId)).Nodup) :
    ∃ changed, detectNewlyCompleted before after = some changed := by
  unfold detectNewlyCompleted
  exact detectGo_total before after hb ha (after.map (fun r => r.lineId)) []
    (fun _ hx => hx)

/-! ### Lemmas about inventory updates -/

theorem updateOnHand_item_map (inv : List InvRecord) (bs : String) (v : Int) :
    (updateOnHand inv bs v).map (fun r => r.item) = inv.map (fun r => r.item) := by
  unfold updateOnHand
  rw [List.map_map]
  congr 1
  funext r
  by_cases h : (r.item == bs) = true
  · simp [Function.comp, h, setOnHand]
  · simp [Function.comp, h]

theorem updateOnHand_length (inv : List InvRecord) (bs : String) (v : Int) :
    (updateOnHand inv bs v).length = inv.length := by
  unfold updateOnHand
  rw [List.length_map]

theorem updateOnHand_getElem (inv : List InvRecord) (bs : String) (v : Int)
    (i : Nat) (h : i < inv.length) (h2 : i < (updateOnHand inv bs v).length) :
    (updateOnHand inv bs v)[i]
      = if inv[i].item == bs then setOnHand inv[i] v else inv[i] := by
  simp only [updateOnHand, List.getElem_map]

theorem recomputeLowStock_item_map (inv : List InvRecord) :
    (recomputeLowStock inv).map (fun r => r.item) = inv.map (fun r => r.item) := by
  unfold recomputeLowStock
  rw [List.map_map]
  congr 1

theorem recomputeLowStock_length (inv : List InvRecord) :
    (recomputeLowStock inv).length = inv.length := by
  unfold recomputeLowStock
  rw [List.length_map]

theorem recomputeLowStock_getElem (inv : List InvRecord)
    (i : Nat) (h : i < inv.length) (h2 : i < (recomputeLowStock inv).length) :
    (recomputeLowStock inv)[i]
      = setLowStock inv[i] (decide (inv[i].onHand ≤ inv[i].minLevel)) := by
  simp only [recomputeLowStock, List.getElem_map]

theorem any_item_congr : ∀ (inv1 inv2 : List InvRecord),
    inv1.map (fun r => r.item) = inv2.map (fun r => r.item) →
    ∀ b : String, inv1.any (fun r => r.item == b) = inv2.any (fun r => r.item == b) := by
  intro inv1
  induction inv1 with
  | nil =>
    intro inv2 h b
    cases inv2 with
    | nil => rfl
    | cons a t => simp at h
  | cons a t ih =>
    intro inv2 h b
    cases inv2 with
    | nil => simp at h
    | cons a2 t2 =>
      simp only [List.map_cons, List.cons.injEq] at h
      simp only [List.any_cons, h.1]
      rw [ih t2 h.2 b]

theorem appliedTarget_congr {inv1 inv2 : List InvRecord}
    (h : inv1.map (fun r => r.item) = inv2.map (fun r => r.item))
    (lookup : String → Option (String × Int)) (after : List OrderLine) (lid : String) :
    appliedTarget lookup after inv1 lid = appliedTarget lookup after inv2 lid := by
  unfold appliedTarget
  cases locLine after lid with
  | none => rfl
  | some line =>
    by_cases hq : line.qty ≤ 0
    · simp [hq]
    · simp only [if_neg hq]
      cases lookup (pyStrip line.sku) with
      | none => rfl
      | some e =>
        cases e with
        | mk bs u =>
          dsimp only
          rw [any_item_congr inv1 inv2 h bs]

theorem consumptionOf_congr {inv1 inv2 : List InvRecord}
    (h : inv1.map (fun r => r.item) = inv2.map (fun r => r.item))
    (lookup : String → Option (String × Int)) (after : List OrderLine)
    (key lid : String) :
    consumptionOf lookup after inv1 key lid = consumptionOf lookup after inv2 key lid := by
  unfold consumptionOf
  cases locLine after lid with
  | none => rfl
  | some line =>
    by_cases hq : line.qty ≤ 0
    · simp [hq]
    · simp only [if_neg hq]
      cases lookup (pyStrip line.sku) with
      | none => rfl
      | some e =>
        cases e with
        | mk bs u =>
          dsimp only
          rw [any_item_congr inv1 inv2 h bs]

theorem totalConsumption_congr {inv1 inv2 : List InvRecord}
    (h : inv1.map (fun r => r.item) = inv2.map (fun r => r.item))
    (lookup : String → Option (String × Int)) (after : List OrderLine)
    (key : String) :
    ∀ lids : List String,
      totalConsumption lookup after inv1 key lids
        = totalConsumption lookup after inv2 key lids := by
  intro lids
  induction lids with
  | nil => rfl
  | cons lid rest ih =>
    unfold totalConsumption
    rw [consumptionOf_congr h lookup after key lid, ih]

theorem locOnHand_of_filter {inv : List InvRecord} {bs : String} {r : InvRecord}
    (h : inv.filter (fun x => x.item == bs) = [r]) :
    locOnHand inv bs = some r.onHand := by
  unfold locOnHand
  rw [h]

theorem locOnHand_of_nodup {inv : List InvRecord}
    (hnd : (inv.map (fun r => r.item)).Nodup) {x : InvRecord} (hx : x ∈ inv) :
    locOnHand inv x.item = some x.onHand :=
  locOnHand_of_filter (filter_eq_single_of_nodup (fun r : InvRecord => r.item) hnd hx)

/-! ### Characterization of one decrement-loop iteration -/

theorem applyLineStep_cases {lookup : String → Option (String × Int)}
    {after : List OrderLine} {inv : List InvRecord} {ws : List Warning}
    {lid : String} {inv2 : List InvRecord} {ws2 : List Warning}
    (h : applyLineStep lookup after inv ws lid = some (inv2, ws2)) :
    ∃ line, locLine after lid = some line ∧
      ((line.qty ≤ 0 ∧ inv2 = inv ∧ ws2 = ws) ∨
       (0 < line.qty ∧ lookup (pyStrip line.sku) = none ∧ inv2 = inv ∧
         ws2 = ws ++ [Warning.noMapEntry (pyStrip line.sku) lid]) ∨
       (∃ bs u, 0 < line.qty ∧ lookup (pyStrip line.sku) = some (bs, u) ∧
         inv.any (fun r => r.item == bs) = false ∧ inv2 = inv ∧
         ws2 = ws ++ [Warning.balanceNotFound bs lid]) ∨
       (∃ bs u cur, 0 < line.qty ∧ lookup (pyStrip line.sku) = some (bs, u) ∧
         inv.any (fun r => r.item == bs) = true ∧ locOnHand inv bs = some cur ∧
         inv2 = updateOnHand inv bs (cur - line.qty * max u 1) ∧ ws2 = ws)) := by
  unfold applyLineStep at h
  cases hl : locLine after lid with
  | none => rw [hl] at h; simp at h
  | some line =>
    rw [hl] at h
    simp only [Option.some_bind] at h
    refine ⟨line, rfl, ?_⟩
    by_cases hq : line.qty ≤ 0
    · rw [if_pos hq] at h
      simp only [Option.some.injEq, Prod.mk.injEq] at h
      exact Or.inl ⟨hq, h.1.symm, h.2.symm⟩
    · rw [if_neg hq] at h
      have hq' : 0 < line.qty := by omega
      cases hm : lookup (pyStrip line.sku) with
      | none =>
        rw [hm] at h
        simp only [Option.some.injEq, Prod.mk.injEq] at h
        exact Or.inr (Or.inl ⟨hq', rfl, h.1.symm, h.2.symm⟩)
      | some e =>
        cases e with
        | mk bs u =>
          rw [hm] at h
          dsimp only at h
          by_cases hb : inv.any (fun r => r.item == bs) = true
          · rw [if_pos hb] at h
            cases hc : locOnHand inv bs with
            | none => rw [hc] at h; simp at h
            | some cur =>
              rw [hc] at h
              simp only [Option.some_bind, Option.some.injEq, Prod.mk.injEq] at h
              exact Or.inr (Or.inr (Or.inr
                ⟨bs, u, cur, hq', rfl, hb, hc, h.1.symm, h.2.symm⟩))
          · rw [if_neg hb] at h
            simp only [Option.some.injEq, Prod.mk.injEq] at h
            exact Or.inr (Or.inr (Or.inl
              ⟨bs, u, hq', rfl, Bool.not_eq_true _ ▸ hb, h.1.symm, h.2.symm⟩))

/-! ### Global facts about the decrement loop -/

theorem applyGo_items (lookup : String → Option (String × Int)) (after : List OrderLine) :
    ∀ (lids : List String) (inv : List InvRecord) (ws : List Warning)
      {inv2 : List InvRecord} {ws2 : List Warning},
      applyGo lookup after lids inv ws = some (inv2, ws2) →
      inv2.map (fun r => r.item) = inv.map (fun r => r.item) := by
  intro lids
  induction lids with
  | nil =>
    intro inv ws inv2 ws2 h
    unfold applyGo at h
    simp only [Option.some.injEq, Prod.mk.injEq] at h
    rw [← h.1]
  | cons lid rest ih =>
    intro inv ws inv2 ws2 h
    unfold applyGo at h
    cases hstep : applyLineStep lookup after inv ws lid with
    | none => rw [hstep] at h; simp at h
    | some s =>
      rw [hstep] at h
      simp only [Option.some_bind] at h
      cases s with
      | mk inv1 ws1 =>
        obtain ⟨line, hl, hcase⟩ := applyLineStep_cases hstep
        have hi := ih inv1 ws1 h
        rcases hcase with ⟨_, hinv, _⟩ | ⟨_, _, hinv, _⟩ | ⟨bs, u, _, _, _, hinv, _⟩ |
          ⟨bs, u, cur, _, _, _, _, hinv, _⟩
        · rw [hi, hinv]
        · rw [hi, hinv]
        · rw [hi, hinv]
        · rw [hi, hinv, updateOnHand_item_map]

theorem applyGo_frame (lookup : String → Option (String × Int)) (after : List OrderLine) :
    ∀ (lids : List String) (inv : List InvRecord) (ws : List Warning)
      {inv2 : List InvRecord} {ws2 : List Warning},
      applyGo lookup after lids inv ws = some (inv2, ws2) →
      ∀ (i : Nat) (h1 : i < inv.length) (h2 : i < inv2.length),
        inv2[i].item = inv[i].item ∧ inv2[i].sku = inv[i].sku ∧
        inv2[i].minLevel = inv[i].minLevel ∧ inv2[i].lowStock = inv[i].lowStock ∧
        ((∀ lid ∈ lids, appliedTarget lookup after inv lid ≠ some inv[i].item) →
          inv2[i].onHand = inv[i].onHand) := by
  intro lids
  induction lids with
  | nil =>
    intro inv ws inv2 ws2 h i h1 h2
    unfold applyGo at h
    simp only [Option.some.injEq, Prod.mk.injEq] at h
    obtain ⟨hinv, _⟩ := h
    subst hinv
    exact ⟨rfl, rfl, rfl, rfl, fun _ => rfl⟩
  | cons lid rest ih =>
    intro inv ws inv2 ws2 h i h1 h2
    unfold applyGo at h
    cases hstep : applyLineStep lookup after inv ws lid with
    | none => rw [hstep] at h; simp at h
    | some s =>
      rw [hstep] at h
      simp only [Option.some_bind] at h
      cases s with
      | mk inv1 ws1 =>
        obtain ⟨line, hl, hcase⟩ := applyLineStep_cases hstep
        rcases hcase with ⟨hq, hinv, hws⟩ | ⟨hq, hm, hinv, hws⟩ |
          ⟨bs, u, hq, hm, hany, hinv, hws⟩ | ⟨bs, u, cur, hq, hm, hany, hcur, hinv, hws⟩
        · subst hinv
          have hrec := ih inv1 ws1 h i h1 h2
          exact ⟨hrec.1, hrec.2.1, hrec.2.2.1, hrec.2.2.2.1,
            fun hno => hrec.2.2.2.2
              (fun l hls => hno l (List.mem_cons_of_mem lid hls))⟩
        · subst hinv
          have hrec := ih inv1 ws1 h i h1 h2
          exact ⟨hrec.1, hrec.2.1, hrec.2.2.1, hrec.2.2.2.1,
            fun hno => hrec.2.2.2.2
              (fun l hls => hno l (List.mem_cons_of_mem lid hls))⟩
        · subst hinv
          have hrec := ih inv1 ws1 h i h1 h2
          exact ⟨hrec.1, hrec.2.1, hrec.2.2.1, hrec.2.2.2.1,
            fun hno => hrec.2.2.2.2
              (fun l hls => hno l (List.mem_cons_of_mem lid hls))⟩
        · subst hinv
          have hitems := updateOnHand_item_map inv bs (cur - line.qty * max u 1)
          have h1u : i < (updateOnHand inv bs (cur - line.qty * max u 1)).length := by
            rw [updateOnHand_length]; exact h1
          have hrec := ih _ ws1 h i h1u h2
          have hget := updateOnHand_getElem inv bs (cur - line.qty * max u 1) i h1 h1u
          have hWitem :
              (updateOnHand inv bs (cur - line.qty * max u 1))[i].item = inv[i].item := by
            rw [hget]; split <;> rfl
          have hWsku :
              (updateOnHand inv bs (cur - line.qty * max u 1))[i].sku = inv[i].sku := by
            rw [hget]; split <;> rfl
          have hWmin :
              (updateOnHand inv bs (cur - line.qty * max u 1))[i].minLevel
                = inv[i].minLevel := by
            rw [hget]; split <;> rfl
          have hWlow :
              (updateOnHand inv bs (cur - line.qty * max u 1))[i].lowStock
                = inv[i].lowStock := by
            rw [hget]; split <;> rfl
          refine ⟨hrec.1.trans hWitem, hrec.2.1.trans hWsku, hrec.2.2.1.trans hWmin,
            hrec.2.2.2.1.trans hWlow, fun hno => ?_⟩
          have htgt : appliedTarget lookup after inv lid = some bs := by
            unfold appliedTarget
            rw [hl]
            dsimp only
            rw [if_neg (by omega : ¬ line.qty ≤ 0), hm]
            dsimp only
            rw [if_pos hany]
          have hbs_ne : bs ≠ inv[i].item := by
            intro hbseq
            exact hno lid (List.mem_cons_self lid rest) (by rw [htgt, hbseq])
          have hci : (inv[i].item == bs) = false := by
            simp only [beq_eq_false_iff_ne, ne_eq]
            intro hcieq
            exact hbs_ne hcieq.symm
          have hWon :
              (updateOnHand inv bs (cur - line.qty * max u 1))[i].onHand
                = inv[i].onHand := by
            rw [hget, if_neg (by simp [hci])]
          have hrest : ∀ l ∈ rest,
              appliedTarget lookup after (updateOnHand inv bs (cur - line.qty * max u 1)) l
                ≠ some (updateOnHand inv bs (cur - line.qty * max u 1))[i].item := by
            intro l hls
            rw [appliedTarget_congr hitems lookup after l, hWitem]
            exact hno l (List.mem_cons_of_mem lid hls)
          exact (hrec.2.2.2.2 hrest).trans hWon

theorem applyGo_onHand (lookup : String → Option (String × Int)) (after : List OrderLine) :
    ∀ (lids : List String) (inv : List InvRecord) (ws : List Warning)
      {inv2 : List InvRecord} {ws2 : List Warning},
      (inv.map (fun r => r.item)).Nodup →
      applyGo lookup after lids inv ws = some (inv2, ws2) →
      ∀ (i : Nat) (h1 : i < inv.length) (h2 : i < inv2.length),
        inv2[i].onHand = inv[i].onHand
          - totalConsumption lookup after inv inv[i].item lids := by
  intro lids
  induction lids with
  | nil =>
    intro inv ws inv2 ws2 hnd h i h1 h2
    unfold applyGo at h
    simp only [Option.some.injEq, Prod.mk.injEq] at h
    obtain ⟨hinv, _⟩ := h
    subst hinv
    unfold totalConsumption
    omega
  | cons lid rest ih =>
    intro inv ws inv2 ws2 hnd h i h1 h2
    unfold applyGo at h
    cases hstep : applyLineStep lookup after inv ws lid with
    | none => rw [hstep] at h; simp at h
    | some s =>
      rw [hstep] at h
      simp only [Option.some_bind] at h
      cases s with
      | mk inv1 ws1 =>
        obtain ⟨line, hl, hcase⟩ := applyLineStep_cases hstep
        unfold totalConsumption
        rcases hcase with ⟨hq, hinv, hws⟩ | ⟨hq, hm, hinv, hws⟩ |
          ⟨bs, u, hq, hm, hany, hinv, hws⟩ | ⟨bs, u, cur, hq, hm, hany, hcur, hinv, hws⟩
        · subst hinv
          have hc0 : consumptionOf lookup after inv1 inv1[i].item lid = 0 := by
            unfold consumptionOf
            rw [hl]
            dsimp only
            rw [if_pos hq]
          have hrec := ih inv1 ws1 hnd h i h1 h2
          omega
        · subst hinv
          have hc0 : consumptionOf lookup after inv1 inv1[i].item lid = 0 := by
            unfold consumptionOf
            rw [hl]
            dsimp only
            rw [if_neg (by omega : ¬ line.qty ≤ 0), hm]
          have hrec := ih inv1 ws1 hnd h i h1 h2
          omega
        · subst hinv
          have hc0 : consumptionOf lookup after inv1 inv1[i].item lid = 0 := by
            unfold consumptionOf
            rw [hl]
            dsimp only
            rw [if_neg (by omega : ¬ line.qty ≤ 0), hm]
            dsimp only
            rw [hany]
            simp
          have hrec := ih inv1 ws1 hnd h i h1 h2
          omega
        · subst hinv
          have hitems := updateOnHand_item_map inv bs (cur - line.qty * max u 1)
          have hnd1 :
              ((updateOnHand inv bs (cur - line.qty * max u 1)).map
                (fun r => r.item)).Nodup := by
            rw [hitems]; exact hnd
          have h1u : i < (updateOnHand inv bs (cur - line.qty * max u 1)).length := by
            rw [updateOnHand_length]; exact h1
          have hrec := ih _ ws1 hnd1 h i h1u h2
          have hget := updateOnHand_getElem inv bs (cur - line.qty * max u 1) i h1 h1u
          have hWitem :
              (updateOnHand inv bs (cur - line.qty * max u 1))[i].item = inv[i].item := by
            rw [hget]; split <;> rfl
          have htc :
              totalConsumption lookup after
                  (updateOnHand inv bs (cur - line.qty * max u 1)) inv[i].item rest
                = totalConsumption lookup after inv inv[i].item rest :=
            totalConsumption_congr hitems lookup after inv[i].item rest
          rw [hWitem, htc] at hrec
          by_cases hci : (inv[i].item == bs) = true
          · have hieq : inv[i].item = bs := by simpa using hci
            have hx : inv[i] ∈ inv := List.getElem_mem h1
            have hloc2 : locOnHand inv inv[i].item = some inv[i].onHand :=
              locOnHand_of_nodup hnd hx
            rw [hieq] at hloc2
            rw [hcur] at hloc2
            have hcureq : cur = inv[i].onHand := by
              injection hloc2 with hloc2
            have hWon :
                (updateOnHand inv bs (cur - line.qty * max u 1))[i].onHand
                  = cur - line.qty * max u 1 := by
              rw [hget, if_pos hci]; rfl
            have hcons : consumptionOf lookup after inv inv[i].item lid
                = line.qty * max u 1 := by
              unfold consumptionOf
              rw [hl]
              dsimp only
              rw [if_neg (by omega : ¬ line.qty ≤ 0), hm]
              dsimp only
              have hcond : (bs == inv[i].item && inv.any (fun r => r.item == bs)) = true := by
                rw [hany, hieq]
                simp
              rw [if_pos hcond]
            rw [hWon] at hrec
            rw [hrec, hcons]
            omega
          · have hWon :
                (updateOnHand inv bs (cur - line.qty * max u 1))[i].onHand
                  = inv[i].onHand := by
              rw [hget, if_neg (by simp [hci] : ¬ ((inv[i].item == bs) = true))]
            have hcons : consumptionOf lookup after inv inv[i].item lid = 0 := by
              unfold consumptionOf
              rw [hl]
              dsimp only
              rw [if_neg (by omega : ¬ line.qty ≤ 0), hm]
              dsimp only
              have hbsf : (bs == inv[i].item) = false := by
                simp only [beq_eq_false_iff_ne, ne_eq]
                intro hbseq
                rw [hbseq] at hci
                simp at hci
              rw [hbsf]
              simp
            rw [hWon] at hrec
            rw [hrec, hcons]
            omega

theorem applyGo_total (lookup : String → Option (String × Int)) (after : List OrderLine) :
    ∀ (lids : List String) (inv : List InvRecord) (ws : List Warning),
      (inv.map (fun r => r.item)).Nodup →
      (∀ lid ∈ lids, (locLine after lid).isSome) →
      ∃ out, applyGo lookup after lids inv ws = some out := by
  intro lids
  induction lids with
  | nil => intro inv ws _ _; exact ⟨(inv, ws), rfl⟩
  | cons lid rest ih =>
    intro inv ws hnd hsub
    obtain ⟨line, hl⟩ := Option.isSome_iff_exists.mp
      (hsub lid (List.mem_cons_self lid rest))
    by_cases hq : line.qty ≤ 0
    · have hstep : applyLineStep lookup after inv ws lid = some (inv, ws) := by
        unfold applyLineStep
        rw [hl]
        simp only [Option.some_bind]
        rw [if_pos hq]
      obtain ⟨out, ho⟩ := ih inv ws hnd
        (fun x hx => hsub x (List.mem_cons_of_mem lid hx))
      refine ⟨out, ?_⟩
      unfold applyGo
      rw [hstep]
      simpa using ho
    · cases hm : lookup (pyStrip line.sku) with
      | none =>
        have hstep : applyLineStep lookup after inv ws lid
            = some (inv, ws ++ [Warning.noMapEntry (pyStrip line.sku) lid]) := by
          unfold applyLineStep
          rw [hl]
          simp only [Option.some_bind]
          rw [if_neg hq, hm]
        obtain ⟨out, ho⟩ := ih inv (ws ++ [Warning.noMapEntry (pyStrip line.sku) lid]) hnd
          (fun x hx => hsub x (List.mem_cons_of_mem lid hx))
        refine ⟨out, ?_⟩
        unfold applyGo
        rw [hstep]
        simpa using ho
      | some e =>
        cases e with
        | mk bs u =>
          by_cases hb : inv.any (fun r => r.item == bs) = true
          · obtain ⟨x, hxmem, hxbs⟩ := List.any_eq_true.mp hb
            have hxi : x.item = bs := by simpa using hxbs
            have hcur : locOnHand inv bs = some x.onHand := by
              rw [← hxi]
              exact locOnHand_of_nodup hnd hxmem
            have hstep : applyLineStep lookup after inv ws lid
                = some (updateOnHand inv bs (x.onHand - line.qty * max u 1), ws) := by
              unfold applyLineStep
              rw [hl]
              simp only [Option.some_bind]
              rw [if_neg hq, hm]
              dsimp only
              rw [if_pos hb, hcur]
              simp only [Option.some_bind]
            have hnd1 :
                ((updateOnHand inv bs (x.onHand - line.qty * max u 1)).map
                  (fun r => r.item)).Nodup := by
              rw [updateOnHand_item_map]; exact hnd
            obtain ⟨out, ho⟩ := ih (updateOnHand inv bs (x.onHand - line.qty * max u 1))
              ws hnd1 (fun y hy => hsub y (List.mem_cons_of_mem lid hy))
            refine ⟨out, ?_⟩
            unfold applyGo
            rw [hstep]
            simpa using ho
          · have hstep : applyLineStep lookup after inv ws lid
                = some (inv, ws ++ [Warning.balanceNotFound bs lid]) := by
              unfold applyLineStep
              rw [hl]
              simp only [Option.some_bind]
              rw [if_neg hq, hm]
              dsimp only
              rw [if_neg hb]
            obtain ⟨out, ho⟩ := ih inv (ws ++ [Warning.balanceNotFound bs lid]) hnd
              (fun x hx => hsub x (List.mem_cons_of_mem lid hx))
            refine ⟨out, ?_⟩
            unfold applyGo
            rw [hstep]
            simpa using ho

/-! ### Top-level structure of the reconcile function -/

theorem items_length {inv1 inv2 : List InvRecord}
    (h : inv1.map (fun r => r.item) = inv2.map (fun r => r.item)) :
    inv1.length = inv2.length := by
  have hc := congrArg List.length h
  simpa using hc

theorem apply_completions_detect {before after : List OrderLine}
    {inv : List InvRecord} {mapRows : List MapRow}
    {inv2 : List InvRecord} {ws : List Warning}
    (happ : apply_completions_update_inventory before after inv mapRows
      = some (inv2, ws)) :
    ∃ changed, detectNewlyCompleted before after = some changed := by
  unfold apply_completions_update_inventory at happ
  cases hdet : detectNewlyCompleted before after with
  | none => rw [hdet] at happ; simp at happ
  | some c => exact ⟨c, rfl⟩

theorem apply_completions_elim {before after : List OrderLine}
    {inv : List InvRecord} {mapRows : List MapRow}
    {changed : List String} {inv2 : List InvRecord} {ws : List Warning}
    (hdet : detectNewlyCompleted before after = some changed)
    (happ : apply_completions_update_inventory before after inv mapRows
      = some (inv2, ws)) :
    ∃ inv0, applyGo (mapLookup mapRows) after changed inv [] = some (inv0, ws) ∧
      inv2 = recomputeLowStock inv0 := by
  unfold apply_completions_update_inventory at happ
  rw [hdet] at happ
  simp only [Option.some_bind] at happ
  cases hgo : applyGo (mapLookup mapRows) after changed inv [] with
  | none => rw [hgo] at happ; simp at happ
  | some s =>
    rw [hgo] at happ
    cases s with
    | mk inv0 ws0 =>
      simp only [Option.some_bind, Option.some.injEq, Prod.mk.injEq] at happ
      refine ⟨inv0, ?_, happ.1.symm⟩
      rw [← happ.2]

theorem recomputeLowStock_eq_self : ∀ (inv : List InvRecord),
    (∀ r ∈ inv, r.lowStock = decide (r.onHand ≤ r.minLevel)) →
    recomputeLowStock inv = inv := by
  intro inv
  induction inv with
  | nil => intro _; rfl
  | cons a t ih =>
    intro h
    unfold recomputeLowStock
    simp only [List.map_cons]
    have ha : setLowStock a (decide (a.onHand ≤ a.minLevel)) = a := by
      rw [← h a (List.mem_cons_self a t)]
      cases a
      rfl
    have ht := ih (fun r hr => h r (List.mem_cons_of_mem a hr))
    unfold recomputeLowStock at ht
    rw [ha, ht]

theorem applyGo_cons (lookup : String → Option (String × Int)) (after : List OrderLine)
    (lid : String) (rest : List String) (inv : List InvRecord) (ws : List Warning) :
    applyGo lookup after (lid :: rest) inv ws
      = (applyLineStep lookup after inv ws lid).bind
          (fun s => applyGo lookup after rest s.1 s.2) := rfl

/-! ### Claim theorems -/

/-- Claim C2: detectNewlyCompleted reports a lineId (as a member of the changed
list) if and only if the lineId has a row in ordersAfter whose Completed flag
is true while its flag in ordersBefore was false, defaulting to false when the
lineId is absent from ordersBefore (this default and the absence case are part
of wasCompleted); already-completed lines and true-to-false flips are never
reported. -/
theorem c2_detect_newly_completed_iff (before after : List OrderLine)
    (changed : List String)
    (hdet : detectNewlyCompleted before after = some changed) (lid : String) :
    lid ∈ changed ↔ NewlyCompleted before after lid :=
  detect_mem hdet lid

theorem c2_witness :
    detectNewlyCompleted
        [⟨"L1", "J6", 3, false⟩, ⟨"L2", "J7", 1, true⟩]
        [⟨"L1", "J6", 3, true⟩, ⟨"L2", "J7", 1, true⟩, ⟨"L3", "J8", 2, false⟩]
      = some ["L1"] ∧
    ("L1" ∈ ["L1"] ↔ NewlyCompleted
        [⟨"L1", "J6", 3, false⟩, ⟨"L2", "J7", 1, true⟩]
        [⟨"L1", "J6", 3, true⟩, ⟨"L2", "J7", 1, true⟩, ⟨"L3", "J8", 2, false⟩] "L1") :=
  ⟨rfl, c2_detect_newly_completed_iff
    [⟨"L1", "J6", 3, false⟩, ⟨"L2", "J7", 1, true⟩]
    [⟨"L1", "J6", 3, true⟩, ⟨"L2", "J7", 1, true⟩, ⟨"L3", "J8", 2, false⟩]
    ["L1"] rfl "L1"⟩

/-- Claim C4: reconciling with identical order snapshots (no completion
transitions) returns the input inventory unchanged and emits no warnings; the
input is assumed to satisfy the data-model invariant that its LowStock flags
are consistent (onHand at or below minLevel), which every snapshot produced by
read_inventory_sheet satisfies. -/
theorem c4_no_transitions_identity (orders : List OrderLine)
    (inv : List InvRecord) (mapRows : List MapRow)
    (inv2 : List InvRecord) (ws : List Warning)
    (hlow : ∀ r ∈ inv, r.lowStock = decide (r.onHand ≤ r.minLevel))
    (happ : apply_completions_update_inventory orders orders inv mapRows
      = some (inv2, ws)) :
    inv2 = inv ∧ ws = [] := by
  obtain ⟨changed, hdet⟩ := apply_completions_detect happ
  have hch : changed = [] := detect_self hdet
  subst hch
  obtain ⟨inv0, hgo, heq⟩ := apply_completions_elim hdet happ
  unfold applyGo at hgo
  simp only [Option.some.injEq, Prod.mk.injEq] at hgo
  obtain ⟨hi, hw⟩ := hgo
  subst heq
  rw [← hi, recomputeLowStock_eq_self inv hlow]
  exact ⟨rfl, hw.symm⟩

theorem c4_witness :
    (∀ r ∈ ([⟨"A", "J", 3, 5, true⟩] : List InvRecord),
      r.lowStock = decide (r.onHand ≤ r.minLevel)) ∧
    (([⟨"A", "J", 3, 5, true⟩] : List InvRecord) = [⟨"A", "J", 3, 5, true⟩] ∧
      ([] : List Warning) = []) :=
  ⟨by decide, c4_no_transitions_identity
    [⟨"L1", "J", 2, true⟩, ⟨"L2", "J", 1, false⟩]
    [⟨"A", "J", 3, 5, true⟩] [⟨some "J", some "A", 1⟩]
    [⟨"A", "J", 3, 5, true⟩] [] (by decide) rfl⟩

/-- Claim C5: a newly-completed line with positive quantity whose stripped SKU
has no entry in the mapping lookup makes the decrement loop append exactly one
warning naming that SKU and lineId, leave the inventory untouched, and go on
to process the remaining LineIds of the batch. -/
theorem c5_missing_mapping_warns_and_continues (mapRows : List MapRow)
    (after : List OrderLine) (inv : List InvRecord) (ws : List Warning)
    (rest : List String) (lid : String) (line : OrderLine)
    (hline : locLine after lid = some line)
    (hqty : 0 < line.qty)
    (hmiss : mapLookup mapRows (pyStrip line.sku) = none) :
    applyGo (mapLookup mapRows) after (lid :: rest) inv ws
      = applyGo (mapLookup mapRows) after rest inv
          (ws ++ [Warning.noMapEntry (pyStrip line.sku) lid]) := by
  rw [applyGo_cons]
  have hstep : applyLineStep (mapLookup mapRows) after inv ws lid
      = some (inv, ws ++ [Warning.noMapEntry (pyStrip line.sku) lid]) := by
    unfold applyLineStep
    rw [hline]
    simp only [Option.some_bind]
    rw [if_neg (by omega : ¬ line.qty ≤ 0), hmiss]
  rw [hstep]
  simp only [Option.some_bind]

theorem c5_witness :
    (0:Int) < 2 ∧
    applyGo (mapLookup []) [⟨"L9", "JX", 2, true⟩] ["L9"]
        [⟨"A", "", 1, 0, false⟩] []
      = applyGo (mapLookup []) [⟨"L9", "JX", 2, true⟩] []
          [⟨"A", "", 1, 0, false⟩] [Warning.noMapEntry "JX" "L9"] :=
  ⟨by decide, c5_missing_mapping_warns_and_continues []
    [⟨"L9", "JX", 2, true⟩] [⟨"A", "", 1, 0, false⟩] [] [] "L9"
    ⟨"L9", "JX", 2, true⟩ rfl (by decide) rfl⟩

/-- Claim C6: a newly-completed line with non-positive quantity is skipped
silently by the decrement loop: no inventory record changes and no warning is
appended, whatever the lookup says about its SKU and whether or not its
balance size exists in the inventory; the remaining lines are still
processed. -/
theorem c6_nonpositive_qty_silent_noop (lookup : String → Option (String × Int))
    (after : List OrderLine) (inv : List InvRecord) (ws : List Warning)
    (rest : List String) (lid : String) (line : OrderLine)
    (hline : locLine after lid = some line)
    (hqty : line.qty ≤ 0) :
    applyGo lookup after (lid :: rest) inv ws = applyGo lookup after rest inv ws := by
  rw [applyGo_cons]
  have hstep : applyLineStep lookup after inv ws lid = some (inv, ws) := by
    unfold applyLineStep
    rw [hline]
    simp only [Option.some_bind]
    rw [if_pos hqty]
  rw [hstep]
  simp only [Option.some_bind]

theorem c6_witness :
    ((⟨"L1", "JX", 0, true⟩ : OrderLine).qty ≤ 0) ∧
    applyGo (mapLookup []) [⟨"L1", "JX", 0, true⟩] ["L1"]
        [⟨"A", "", 1, 0, false⟩] []
      = applyGo (mapLookup []) [⟨"L1", "JX", 0, true⟩] []
          [⟨"A", "", 1, 0, false⟩] [] :=
  ⟨by decide, c6_nonpositive_qty_silent_noop (mapLookup [])
    [⟨"L1", "JX", 0, true⟩] [⟨"A", "", 1, 0, false⟩] [] [] "L1"
    ⟨"L1", "JX", 0, true⟩ rfl (by decide)⟩

/-- Claim C1: when the batch's single newly-completed line has qty > 0, its
stripped SKU resolves in the mapping lookup to (bs, u), and a record keyed bs
exists in the (uniquely keyed) inventory, reconcile decreases that record's
onHand by exactly qty * max(u, 1): the applied consumption is qty times the
unitsPerOrder, with an invalid unitsPerOrder (less than 1) clamped to 1. -/
theorem c1_completed_line_decrement (before after : List OrderLine)
    (inv : List InvRecord) (mapRows : List MapRow) (lid : String)
    (line : OrderLine) (bs : String) (u : Int)
    (inv2 : List InvRecord) (ws : List Warning)
    (hnd : (inv.map (fun r => r.item)).Nodup)
    (hdet : detectNewlyCompleted before after = some [lid])
    (hline : locLine after lid = some line)
    (hqty : 0 < line.qty)
    (hmap : mapLookup mapRows (pyStrip line.sku) = some (bs, u))
    (happ : apply_completions_update_inventory before after inv mapRows
      = some (inv2, ws)) :
    ∀ (i : Nat) (h1 : i < inv.length) (h2 : i < inv2.length),
      inv[i].item = bs →
      inv2[i].onHand = inv[i].onHand - line.qty * max u 1 := by
  obtain ⟨inv0, hgo, heq⟩ := apply_completions_elim hdet happ
  subst heq
  have hitems0 := applyGo_items (mapLookup mapRows) after [lid] inv [] hgo
  have hlen0 : inv0.length = inv.length := items_length hitems0
  intro i h1 h2 hitem
  have h2o : i < inv0.length := by rw [hlen0]; exact h1
  have hsum := applyGo_onHand (mapLookup mapRows) after [lid] inv [] hnd hgo i h1 h2o
  have hre := recomputeLowStock_getElem inv0 i h2o h2
  have hany : inv.any (fun r => r.item == bs) = true := by
    apply List.any_eq_true.mpr
    exact ⟨inv[i], List.getElem_mem h1, by simp [hitem]⟩
  have hcons : consumptionOf (mapLookup mapRows) after inv inv[i].item lid
      = line.qty * max u 1 := by
    unfold consumptionOf
    rw [hline]
    dsimp only
    rw [if_neg (by omega : ¬ line.qty ≤ 0), hmap]
    dsimp only
    rw [if_pos (by rw [hitem, hany]; simp)]
  have htotal : totalConsumption (mapLookup mapRows) after inv inv[i].item [lid]
      = line.qty * max u 1 := by
    simp [totalConsumption, hcons]
  have hfin : inv0[i].onHand = inv[i].onHand - line.qty * max u 1 := by
    rw [hsum, htotal]
  rw [hre]
  exact hfin

theorem c1_witness :
    (0:Int) < 3 ∧
    ((([⟨"6-String", "J6", 14, 5, false⟩] : List InvRecord).get ⟨0, by decide⟩).onHand
      = (([⟨"6-String", "J6", 20, 5, false⟩] : List InvRecord).get
          ⟨0, by decide⟩).onHand - 3 * max 2 1) :=
  ⟨by decide, c1_completed_line_decrement [] [⟨"L1", "J6", 3, true⟩]
    [⟨"6-String", "J6", 20, 5, false⟩] [⟨some "J6", some "6-String", 2⟩]
    "L1" ⟨"L1", "J6", 3, true⟩ "6-String" 2
    [⟨"6-String", "J6", 14, 5, false⟩] []
    (by decide) rfl rfl (by decide) rfl rfl 0 (by decide) (by decide) rfl⟩

/-- Claim C3: the decrements of a batch accumulate additively against the
working copy; for every record of a uniquely keyed inventory, the final onHand
equals the starting onHand minus the sum, over the batch's changed LineIds, of
the totalConsume amounts of the lines whose decrement applies to that record's
balance size. -/
theorem c3_same_balance_accumulation (before after : List OrderLine)
    (inv : List InvRecord) (mapRows : List MapRow) (changed : List String)
    (inv2 : List InvRecord) (ws : List Warning)
    (hnd : (inv.map (fun r => r.item)).Nodup)
    (hdet : detectNewlyCompleted before after = some changed)
    (happ : apply_completions_update_inventory before after inv mapRows
      = some (inv2, ws)) :
    ∀ (i : Nat) (h1 : i < inv.length) (h2 : i < inv2.length),
      inv2[i].onHand = inv[i].onHand
        - totalConsumption (mapLookup mapRows) after inv inv[i].item changed := by
  obtain ⟨inv0, hgo, heq⟩ := apply_completions_elim hdet happ
  subst heq
  have hitems0 := applyGo_items (mapLookup mapRows) after changed inv [] hgo
  have hlen0 : inv0.length = inv.length := items_length hitems0
  intro i h1 h2
  have h2o : i < inv0.length := by rw [hlen0]; exact h1
  have hsum := applyGo_onHand (mapLookup mapRows) after changed inv [] hnd hgo i h1 h2o
  have hre := recomputeLowStock_getElem inv0 i h2o h2
  rw [hre]
  exact hsum

theorem c3_witness :
    ((([⟨"10-String", "J10", 40, 5, false⟩] : List InvRecord).get ⟨0, by decide⟩).onHand
      = (([⟨"10-String", "J10", 50, 5, false⟩] : List InvRecord).get
          ⟨0, by decide⟩).onHand
        - totalConsumption (mapLookup [⟨some "J10", some "10-String", 1⟩])
            [⟨"L1", "J10", 5, true⟩, ⟨"L2", "J10", 5, true⟩]
            [⟨"10-String", "J10", 50, 5, false⟩] "10-String" ["L1", "L2"]) :=
  c3_same_balance_accumulation
    [⟨"L1", "J10", 5, false⟩, ⟨"L2", "J10", 5, false⟩]
    [⟨"L1", "J10", 5, true⟩, ⟨"L2", "J10", 5, true⟩]
    [⟨"10-String", "J10", 50, 5, false⟩] [⟨some "J10", some "10-String", 1⟩]
    ["L1", "L2"] [⟨"10-String", "J10", 40, 5, false⟩] []
    (by decide) rfl rfl 0 (by decide) (by decide)

/-- Claim C7: in the snapshot reconcile returns, every record's LowStock flag
equals the decision of onHand at or below minLevel; the full ledger comes back
(the returned records carry exactly the input's Item keys, in order, so no row
is dropped or added); and LowStock is not among the columns that
write_inventory_sheet persists. -/
theorem c7_lowstock_recompute_full_ledger (before after : List OrderLine)
    (inv : List InvRecord) (mapRows : List MapRow)
    (inv2 : List InvRecord) (ws : List Warning)
    (happ : apply_completions_update_inventory before after inv mapRows
      = some (inv2, ws)) :
    (∀ r ∈ inv2, r.lowStock = decide (r.onHand ≤ r.minLevel)) ∧
    inv2.map (fun r => r.item) = inv.map (fun r => r.item) ∧
    "LowStock" ∉ inventorySheetColumns := by
  obtain ⟨changed, hdet⟩ := apply_completions_detect happ
  obtain ⟨inv0, hgo, heq⟩ := apply_completions_elim hdet happ
  subst heq
  refine ⟨?_, ?_, by decide⟩
  · intro r hr
    unfold recomputeLowStock at hr
    obtain ⟨x, hx, hrx⟩ := List.mem_map.mp hr
    rw [← hrx]
    rfl
  · rw [recomputeLowStock_item_map]
    exact applyGo_items (mapLookup mapRows) after changed inv [] hgo

theorem c7_witness :
    (∀ r ∈ ([⟨"B", "J", 4, 5, true⟩] : List InvRecord),
      r.lowStock = decide (r.onHand ≤ r.minLevel)) ∧
    ([⟨"B", "J", 4, 5, true⟩] : List InvRecord).map (fun r => r.item)
      = ([⟨"B", "J", 5, 5, false⟩] : List InvRecord).map (fun r => r.item) ∧
    "LowStock" ∉ inventorySheetColumns :=
  c7_lowstock_recompute_full_ledger [] [⟨"L1", "J", 1, true⟩]
    [⟨"B", "J", 5, 5, false⟩] [⟨some "J", some "B", 1⟩]
    [⟨"B", "J", 4, 5, true⟩] [] rfl

/-- Claim C10: reconcile only rewrites the onHand (and recomputes the derived
lowStock) of records targeted by applied decrements.  The returned snapshot
has exactly as many records as the input; every record keeps its Item, SKU and
MinLevel; and a record whose Item is not the applied target of any changed
LineId keeps its onHand. -/
theorem c10_frame (before after : List OrderLine) (inv : List InvRecord)
    (mapRows : List MapRow) (changed : List String) (inv2 : List InvRecord)
    (ws : List Warning)
    (hdet : detectNewlyCompleted before after = some changed)
    (happ : apply_completions_update_inventory before after inv mapRows
      = some (inv2, ws)) :
    inv2.length = inv.length ∧
    ∀ (i : Nat) (h1 : i < inv.length) (h2 : i < inv2.length),
      inv2[i].item = inv[i].item ∧ inv2[i].sku = inv[i].sku ∧
      inv2[i].minLevel = inv[i].minLevel ∧
      ((∀ lid ∈ changed,
          appliedTarget (mapLookup mapRows) after inv lid ≠ some inv[i].item) →
        inv2[i].onHand = inv[i].onHand) := by
  obtain ⟨inv0, hgo, heq⟩ := apply_completions_elim hdet happ
  subst heq
  have hitems0 := applyGo_items (mapLookup mapRows) after changed inv [] hgo
  have hlen0 : inv0.length = inv.length := items_length hitems0
  constructor
  · rw [recomputeLowStock_length, hlen0]
  · intro i h1 h2
    have h2o : i < inv0.length := by rw [hlen0]; exact h1
    have hfr := applyGo_frame (mapLookup mapRows) after changed inv [] hgo i h1 h2o
    have hre := recomputeLowStock_getElem inv0 i h2o h2
    refine ⟨?_, ?_, ?_, ?_⟩
    · rw [hre]; exact hfr.1
    · rw [hre]; exact hfr.2.1
    · rw [hre]; exact hfr.2.2.1
    · intro hno
      rw [hre]
      exact hfr.2.2.2.2 hno

theorem c10_witness :
    ([⟨"B", "J", 4, 0, false⟩, ⟨"C", "K", 9, 10, true⟩] : List InvRecord).length
      = ([⟨"B", "J", 5, 0, false⟩, ⟨"C", "K", 9, 10, false⟩] : List InvRecord).length ∧
    (([⟨"B", "J", 4, 0, false⟩, ⟨"C", "K", 9, 10, true⟩] : List InvRecord).get
        ⟨1, by decide⟩).item
      = (([⟨"B", "J", 5, 0, false⟩, ⟨"C", "K", 9, 10, false⟩] : List InvRecord).get
          ⟨1, by decide⟩).item ∧
    (([⟨"B", "J", 4, 0, false⟩, ⟨"C", "K", 9, 10, true⟩] : List InvRecord).get
        ⟨1, by decide⟩).onHand
      = (([⟨"B", "J", 5, 0, false⟩, ⟨"C", "K", 9, 10, false⟩] : List InvRecord).get
          ⟨1, by decide⟩).onHand := by
  have h := c10_frame [] [⟨"L1", "J", 1, true⟩]
    [⟨"B", "J", 5, 0, false⟩, ⟨"C", "K", 9, 10, false⟩]
    [⟨some "J", some "B", 1⟩] ["L1"]
    [⟨"B", "J", 4, 0, false⟩, ⟨"C", "K", 9, 10, true⟩] [] rfl rfl
  refine ⟨h.1, (h.2 1 (by decide) (by decide)).1, ?_⟩
  exact (h.2 1 (by decide) (by decide)).2.2.2 (by decide)

/-- Claim C8 (counterexample): a Map row whose JamlinerLength cell is blank
(whitespace only) is NOT excluded from the lookup: dropna only removes missing
(NaN) cells, so the stripped blank key is retained as the empty-string key and
resolves. -/
theorem c8_blank_key_counterexample :
    mapLookup [⟨some "  ", some "B", 2⟩] "" = some ("B", 2) := rfl

/-- Claim C8 (amended): the lookup indexes MapEntry rows by their
whitespace-stripped jamlinerLength; a row with a missing (NaN) jamlinerLength
or balanceSize is excluded, while a blank key is retained as the empty-string
key; and appending a row with a present key makes its stripped key resolve to
that row's values, i.e. the last-seen row wins and the lookup is
single-valued. -/
theorem c8_lookup_amended (rows : List MapRow) (k s b : String) (u : Int)
    (r : MapRow)
    (hr : r.jamlinerLength = none ∨ r.balanceSize = none) :
    mapLookup (rows ++ [⟨some s, some b, u⟩]) (pyStrip s) = some (pyStrip b, u) ∧
    mapLookup (rows ++ [r]) k = mapLookup rows k := by
  constructor
  · unfold mapLookup cleanMapRows
    rw [List.filterMap_append]
    simp only [List.filterMap_cons, List.filterMap_nil]
    rw [List.reverse_append]
    simp only [List.reverse_cons, List.reverse_nil, List.nil_append,
      List.singleton_append]
    rw [List.find?_cons_of_pos]
    · rfl
    · simp
  · unfold mapLookup cleanMapRows
    rw [List.filterMap_append]
    rcases hr with h | h
    · simp [List.filterMap_cons, h]
    · cases hj : r.jamlinerLength <;> simp [List.filterMap_cons, h, hj]

theorem c8_witness :
    ((⟨none, some "Q", 1⟩ : MapRow).jamlinerLength = none ∨
      (⟨none, some "Q", 1⟩ : MapRow).balanceSize = none) ∧
    (mapLookup ([⟨some "X", some "P", 3⟩] ++ [⟨some " J ", some "B", 2⟩])
        (pyStrip " J ") = some (pyStrip "B", 2) ∧
      mapLookup ([⟨some "X", some "P", 3⟩] ++ [(⟨none, some "Q", 1⟩ : MapRow)]) "X"
        = mapLookup [⟨some "X", some "P", 3⟩] "X") :=
  ⟨Or.inl rfl, c8_lookup_amended [⟨some "X", some "P", 3⟩] "X" " J " "B" 2
    ⟨none, some "Q", 1⟩ (Or.inl rfl)⟩

/-- Claim C9 (counterexample): with lineIds unique in both order snapshots but
a duplicated balanceSize (Item) key in the inventory, the decrement of a
mapped, newly-completed line reaches int(inv.loc[bs, "OnHand"]) on a two-row
Series and raises (modelled as none): uniqueness of lineIds alone does not
make reconcile total. -/
theorem c9_duplicate_balance_counterexample :
    (([⟨"L1", "J", 1, true⟩] : List OrderLine).map (fun r => r.lineId)).Nodup ∧
    (([] : List OrderLine).map (fun r => r.lineId)).Nodup ∧
    apply_completions_update_inventory [] [⟨"L1", "J", 1, true⟩]
      [⟨"B", "", 5, 0, false⟩, ⟨"B", "", 7, 0, false⟩]
      [⟨some "J", some "B", 1⟩] = none :=
  ⟨by decide, by decide, rfl⟩

/-- Claim C9 (amended): under the data-model invariants that lineIds are
unique within each order snapshot AND balanceSize (Item) is unique across the
inventory ledger, reconcile is total: for every mapping table it returns an
updated snapshot together with its warning list, never aborting the batch
(and, being a function of its four arguments, it is deterministic). -/
theorem c9_reconcile_total_amended (before after : List OrderLine)
    (inv : List InvRecord) (mapRows : List MapRow)
    (hb : (before.map (fun r => r.lineId)).Nodup)
    (ha : (after.map (fun r => r.lineId)).Nodup)
    (hi : (inv.map (fun r => r.item)).Nodup) :
    ∃ out, apply_completions_update_inventory before after inv mapRows
      = some out := by
  obtain ⟨changed, hdet⟩ := detect_total before after hb ha
  have hsub : ∀ lid ∈ changed, (locLine after lid).isSome := by
    intro lid hmem
    obtain ⟨line, hl, _, _⟩ := (detect_mem hdet lid).mp hmem
    rw [hl]
    rfl
  obtain ⟨out, hgo⟩ := applyGo_total (mapLookup mapRows) after changed inv [] hi hsub
  refine ⟨(recomputeLowStock out.1, out.2), ?_⟩
  unfold apply_completions_update_inventory
  rw [hdet]
  simp only [Option.some_bind]
  cases out with
  | mk o1 o2 =>
    rw [hgo]
    simp only [Option.some_bind]

theorem c9_witness :
    (([⟨"L0", "J", 2, false⟩] : List OrderLine).map (fun r => r.lineId)).Nodup ∧
    (([⟨"L0", "J", 2, true⟩] : List OrderLine).map (fun r => r.lineId)).Nodup ∧
    (([⟨"B", "J", 9, 1, false⟩] : List InvRecord).map (fun r => r.item)).Nodup ∧
    ∃ out, apply_completions_update_inventory [⟨"L0", "J", 2, false⟩]
      [⟨"L0", "J", 2, true⟩] [⟨"B", "J", 9, 1, false⟩]
      [⟨some "J", some "B", 2⟩] = some out :=
  ⟨by decide, by decide, by decide,
    c9_reconcile_total_amended [⟨"L0", "J", 2, false⟩] [⟨"L0", "J", 2, true⟩]
      [⟨"B", "J", 9, 1, false⟩] [⟨some "J", some "B", 2⟩]
      (by decide) (by decide) (by decide)⟩
